import Mathlib

/-!
Verification of `summarize-beacon.py` against its specification.

Shallow embedding conventions:
* Python integers are `Int` (arbitrary precision); list indices are `Nat`.
* Python strings are `String` / `List Char`; `sorted` on a string is
  `List.insertionSort (· ≤ ·)` (the unique ascending rearrangement).
* Each fatal path (`print` of a diagnosis followed by `sys.exit`) is a
  dedicated constructor of the function's result type.
* Network effects (`urlopen`) and the external `chronyk` time parser are
  abstracted as oracle functions passed to the embedded definitions.
-/

namespace SummarizeBeacon

/-- Module constant `_frequency = 3600` (probe interval in seconds). -/
def _frequency : Int := 3600

/-- Module constant `_min_timestamp = 1378395540` (beacon start). -/
def _min_timestamp : Int := 1378395540

/-- Module constant `_main_url`. -/
def _main_url : String := "https://beacon.nist.gov/rest/record/"

/-- Message `_host_unreachable` (the `.format(_main_url)` call interpolates
the URL between the two fixed pieces). -/
def _host_unreachable : String := "Host " ++ _main_url ++ " is unreachable."

/-- Message `_host_unreachable_at_all`. -/
def _host_unreachable_at_all : String :=
  "\nHost " ++ _main_url ++ " probably is down, exiting."

/-- Outcomes of `validate_timestamps`: normal return `True`, or one of the
two `print` + `sys.exit(1)` paths. -/
inductive ValidateResult where
  | ok
  | exitFromAfterTo
  | exitPreEpoch
deriving DecidableEq

/-- Embedding of `validate_timestamps(from_timestamp, to_timestamp)`:
`if from_timestamp > to_timestamp:` exit with `_from_less_than_to`;
`elif from_timestamp < _min_timestamp or to_timestamp < _min_timestamp:`
exit with `_time_less_than_min`; `else: return True`. -/
def validate_timestamps (from_timestamp to_timestamp : Int) : ValidateResult :=
  if from_timestamp > to_timestamp then ValidateResult.exitFromAfterTo
  else if from_timestamp < _min_timestamp ∨ to_timestamp < _min_timestamp then
    ValidateResult.exitPreEpoch
  else ValidateResult.ok

/-- Structural worker for `timestampsList`: `fuel` bounds the number of
steps (any `fuel ≥ (to - from).toNat` yields the full enumeration, since
each step advances `from` by `3600 ≥ 1`). -/
def timestampsListAux : Nat → Int → Int → List Int
  | 0, _, _ => []
  | fuel + 1, from_timestamp, to_timestamp =>
    if from_timestamp < to_timestamp then
      from_timestamp :: timestampsListAux fuel (from_timestamp + 3600) to_timestamp
    else []

/-- Embedding of `range(from_timestamp, to_timestamp, _frequency)` as the
list of its elements: with the positive step `_frequency = 3600`, Python's
`range` enumerates `from_timestamp`, `from_timestamp + 3600`, … while the
value stays strictly below `to_timestamp`. -/
def timestampsList (from_timestamp to_timestamp : Int) : List Int :=
  timestampsListAux (to_timestamp - from_timestamp).toNat from_timestamp to_timestamp

theorem timestampsListAux_congr :
    ∀ fuel₁ fuel₂ : Nat, ∀ f t : Int, (t - f).toNat ≤ fuel₁ → (t - f).toNat ≤ fuel₂ →
      timestampsListAux fuel₁ f t = timestampsListAux fuel₂ f t := by
  intro fuel₁
  induction fuel₁ with
  | zero =>
    intro fuel₂ f t h1 h2
    have hnf : ¬ f < t := by omega
    cases fuel₂ with
    | zero => rfl
    | succ m => simp [timestampsListAux, hnf]
  | succ n ih =>
    intro fuel₂ f t h1 h2
    by_cases hf : f < t
    · cases fuel₂ with
      | zero => omega
      | succ m =>
        simp only [timestampsListAux, if_pos hf, List.cons.injEq, true_and]
        exact ih m (f + 3600) t (by omega) (by omega)
    · cases fuel₂ with
      | zero => simp [timestampsListAux, hf]
      | succ m => simp [timestampsListAux, hf]

/-- One-step unfolding of the `range` enumeration. -/
theorem timestampsList_unfold (f t : Int) :
    timestampsList f t =
      if f < t then f :: timestampsList (f + 3600) t else [] := by
  by_cases h : f < t
  · have h1 : (t - f).toNat = ((t - f).toNat - 1) + 1 := by omega
    rw [if_pos h]
    calc timestampsList f t
        = timestampsListAux (((t - f).toNat - 1) + 1) f t := by
          rw [timestampsList, ← h1]
      _ = f :: timestampsListAux ((t - f).toNat - 1) (f + 3600) t := by
          simp only [timestampsListAux, if_pos h]
      _ = f :: timestampsListAux ((t - (f + 3600)).toNat) (f + 3600) t := by
          rw [timestampsListAux_congr ((t - f).toNat - 1) ((t - (f + 3600)).toNat)
            (f + 3600) t (by omega) (by omega)]
      _ = f :: timestampsList (f + 3600) t := rfl
  · have h0 : (t - f).toNat = 0 := by omega
    rw [if_neg h, timestampsList, h0]
    rfl

theorem mem_timestampsListAux (t : Int) :
    ∀ (fuel : Nat) (f ts : Int), (t - f).toNat ≤ fuel →
      (ts ∈ timestampsListAux fuel f t ↔ ∃ k : Nat, ts = f + 3600 * k ∧ ts < t) := by
  intro fuel
  induction fuel with
  | zero =>
    intro f ts h
    simp only [timestampsListAux, List.not_mem_nil, false_iff]
    rintro ⟨k, rfl, hlt⟩
    omega
  | succ n ih =>
    intro f ts h
    by_cases hf : f < t
    · simp only [timestampsListAux, if_pos hf, List.mem_cons,
        ih (f + 3600) ts (by omega)]
      constructor
      · rintro (rfl | ⟨k, rfl, hlt⟩)
        · exact ⟨0, by simp, hf⟩
        · exact ⟨k + 1, by push_cast; ring, hlt⟩
      · rintro ⟨k, rfl, hlt⟩
        cases k with
        | zero => left; simp
        | succ m => right; exact ⟨m, by push_cast; ring, hlt⟩
    · simp only [timestampsListAux, if_neg hf, List.not_mem_nil, false_iff]
      rintro ⟨k, rfl, hlt⟩
      omega

/-- Membership characterisation of the probe list. -/
theorem mem_timestampsList (f t ts : Int) :
    ts ∈ timestampsList f t ↔ ∃ k : Nat, ts = f + 3600 * k ∧ ts < t :=
  mem_timestampsListAux t ((t - f).toNat) f ts (le_refl _)

theorem sorted_timestampsList (f t : Int) :
    List.Sorted (fun a b : Int => a < b) (timestampsList f t) := by
  have key : ∀ (fuel : Nat) (f : Int),
      List.Sorted (fun a b : Int => a < b) (timestampsListAux fuel f t)
      ∧ (∀ ts : Int, ts ∈ timestampsListAux fuel f t → f ≤ ts) := by
    intro fuel
    induction fuel with
    | zero => intro f; exact ⟨List.sorted_nil, by intro ts hts; simp [timestampsListAux] at hts⟩
    | succ n ih =>
      intro f
      by_cases hf : f < t
      · simp only [timestampsListAux, if_pos hf]
        constructor
        · refine List.pairwise_cons.mpr ⟨?_, (ih (f + 3600)).1⟩
          intro x hx
          have := (ih (f + 3600)).2 x hx
          omega
        · intro ts hts
          rcases List.mem_cons.mp hts with rfl | hmem
          · exact le_refl ts
          · have := (ih (f + 3600)).2 ts hmem
            omega
      · simp only [timestampsListAux, if_neg hf]
        exact ⟨List.sorted_nil, by intro ts hts; simp at hts⟩
  exact (key _ f).1

/-- Embedding of the fetch loop of `get_summary_record`: for each timestamp
of `timestampsList`, `get_xml` + `parse_xml` (abstracted by the `fetch`
oracle, which yields the extracted output value of that slot) and
`output_data += record_from_timestamp`.  Returns the final `output_data`. -/
def get_summary_record (fetch : Int → String) (from_timestamp to_timestamp : Int) : String :=
  ((timestampsList from_timestamp to_timestamp).map fetch).foldl
    (fun r s => r ++ s) ""

/-- Trace of the `progress_bar(index, timestamps_list)` calls made by
`get_summary_record`: one call per loop iteration, carrying the iteration
index and `len(timestamps_list)`. -/
def progress_bar_calls (from_timestamp to_timestamp : Int) : List (Nat × Nat) :=
  ((timestampsList from_timestamp to_timestamp).enum).map
    (fun p => (p.fst, (timestampsList from_timestamp to_timestamp).length))

/-- Embedding of `one_percent = float(len(data_list)) / 100` inside
`progress_bar`, over `ℚ` (exact value of the float expression; it is zero
exactly when the length is zero, which is the division-by-zero condition of
the following `(iteration + 1) / one_percent`). -/
def progress_bar_one_percent (data_list_length : Nat) : ℚ :=
  (data_list_length : ℚ) / 100

/-- C5: the ordering-violation exit of `validate_timestamps` fires exactly
when `from_timestamp > to_timestamp`; for equal or increasing bounds it does
not fire (those cases fall through to the pre-epoch check or succeed). -/
theorem validate_timestamps_ordering (f t : Int) :
    validate_timestamps f t = ValidateResult.exitFromAfterTo ↔ t < f := by
  unfold validate_timestamps
  split_ifs with h1 h2 <;> simp <;> omega

/-- C6 counterexample: `to_timestamp = 0` is below `_min_timestamp`, yet
`validate_timestamps _min_timestamp 0` takes the ordering-violation exit,
not the pre-epoch one — the ordering check runs first. -/
theorem validate_timestamps_pre_epoch_counterexample :
    (0 : Int) < _min_timestamp
    ∧ validate_timestamps _min_timestamp 0 ≠ ValidateResult.exitPreEpoch
    ∧ validate_timestamps _min_timestamp 0 = ValidateResult.exitFromAfterTo := by
  refine ⟨by decide, by decide, by decide⟩

/-- C6 amended: when the bounds are ordered (`from ≤ to`), a bound below
`_min_timestamp` triggers the pre-epoch exit, whichever bound it is. -/
theorem validate_timestamps_pre_epoch (f t : Int) (hle : f ≤ t)
    (hlow : f < _min_timestamp ∨ t < _min_timestamp) :
    validate_timestamps f t = ValidateResult.exitPreEpoch := by
  have h1 : ¬ (f > t) := by omega
  simp only [validate_timestamps]
  rw [if_neg h1, if_pos hlow]

/-- C6 amended witness at `f = t = 0`. -/
theorem validate_timestamps_pre_epoch_witness :
    validate_timestamps 0 0 = ValidateResult.exitPreEpoch :=
  validate_timestamps_pre_epoch 0 0 (le_refl 0) (Or.inl (by decide))

/-- C2: for ordered bounds, the probed timestamps are exactly
`from + 3600*k` strictly below `to`, in strictly increasing order; the
summary is the concatenation of the fetched values in that order; and a
`7200`-second range yields exactly the two probes `f` and `f + 3600`. -/
theorem get_summary_record_probes (f t : Int) (hle : f ≤ t) :
    (∀ ts : Int, ts ∈ timestampsList f t ↔ ∃ k : Nat, ts = f + 3600 * k ∧ ts < t)
    ∧ List.Sorted (fun a b => a < b) (timestampsList f t)
    ∧ (∀ fetch : Int → String,
        get_summary_record fetch f t = String.join ((timestampsList f t).map fetch))
    ∧ timestampsList f (f + 7200) = [f, f + 3600] := by
  refine ⟨mem_timestampsList f t, sorted_timestampsList f t, fun fetch => rfl, ?_⟩
  have e1 : timestampsList f (f + 7200) = f :: timestampsList (f + 3600) (f + 7200) := by
    rw [timestampsList_unfold, if_pos (by omega)]
  have e2 : timestampsList (f + 3600) (f + 7200)
      = (f + 3600) :: timestampsList (f + 3600 + 3600) (f + 7200) := by
    rw [timestampsList_unfold, if_pos (by omega)]
  have e3 : timestampsList (f + 3600 + 3600) (f + 7200) = [] := by
    rw [timestampsList_unfold, if_neg (by omega)]
  rw [e1, e2, e3]

/-- C2 witness: with the trivial bound hypothesis discharged at `f = 0`,
the two-probe conclusion evaluates on concrete inputs. -/
theorem get_summary_record_probes_witness :
    timestampsList 0 (0 + 7200) = [0, 0 + 3600] :=
  (get_summary_record_probes 0 0 (le_refl 0)).2.2.2

/-- C9: every `progress_bar` call made by `get_summary_record` receives the
whole (non-empty) timestamps list, so `len(data_list)` is positive and the
divisor `float(len(data_list)) / 100` is non-zero. -/
theorem progress_bar_no_div_by_zero (f t : Int) (c : Nat × Nat)
    (hc : c ∈ progress_bar_calls f t) :
    c.2 = (timestampsList f t).length ∧ 0 < c.2
    ∧ progress_bar_one_percent c.2 ≠ 0 := by
  rcases List.mem_map.mp hc with ⟨p, hp, rfl⟩
  have hne : (timestampsList f t).enum ≠ [] := List.ne_nil_of_mem hp
  have hlen : 0 < (timestampsList f t).length := by
    by_contra h
    have h0 : timestampsList f t = [] := by
      cases hxs : timestampsList f t with
      | nil => rfl
      | cons a as => rw [hxs] at h; simp at h
    rw [h0] at hne
    simp at hne
  refine ⟨rfl, hlen, ?_⟩
  simp only [progress_bar_one_percent]
  have : ((timestampsList f t).length : ℚ) ≠ 0 := by
    exact_mod_cast Nat.pos_iff_ne_zero.mp hlen
  positivity

/-- C9 witness at `f = 0, t = 1`: the single call is `(0, 1)`. -/
theorem progress_bar_no_div_by_zero_witness :
    (0, 1).2 = (timestampsList 0 1).length ∧ 0 < (0, 1).2
    ∧ progress_bar_one_percent (0, 1).2 ≠ 0 :=
  progress_bar_no_div_by_zero 0 1 (0, 1) (by decide)

/-- Embedding of Python `sorted` on a string's characters: the ascending
rearrangement (unique, since `≤` on `Char` is a linear order). -/
def sortChars (l : List Char) : List Char :=
  List.insertionSort (fun a b : Char => a ≤ b) l

/-- Embedding of the `for symbol in output_value:` loop of
`format_output_value`.  The first argument is the string object the loop
iterator was created from (the sorted string at loop entry — rebinding the
variable inside the loop does not affect the iterator); the second is the
current value of the rebound `output_value` variable.  Each iteration takes
`counter = output_value.count(symbol)` on the current value, prints
`"symbol,counter"` when `counter > 0`, and then strips every occurrence of
`symbol` via `output_value.replace(symbol, "")`. -/
def fovLoop : List Char → List Char → List (Char × Nat)
  | [], _ => []
  | symbol :: rest, cur =>
    (if 0 < cur.count symbol then [(symbol, cur.count symbol)] else [])
      ++ fovLoop rest (cur.filter (fun c => decide (c ≠ symbol)))

/-- Embedding of `format_output_value(output_value)`: returns the printed
`(character, count)` lines, in print order.  (The fixed header line is not
modelled.) -/
def format_output_value (s : String) : List (Char × Nat) :=
  fovLoop (sortChars s.data) (sortChars s.data)

/-- Modelled from the spec's reimplementation note (claim C1's reference):
a single pass builds a character-to-count mapping over the input and emits
it sorted by key — the distinct characters in ascending order, each with
its total occurrence count. -/
def freqReference (s : String) : List (Char × Nat) :=
  (sortChars s.data.dedup).map (fun c => (c, s.data.count c))

/-- C10 counterexample: `validate_timestamps 0 0` has equal bounds yet does
not succeed — it takes the pre-epoch exit, refuting the claim's premise
that validation succeeds whenever `from_ts == to_ts`. -/
theorem equal_bounds_validation_counterexample :
    validate_timestamps 0 0 ≠ ValidateResult.ok := by decide

/-- C10 amended: for equal bounds at or above `_min_timestamp`, validation
succeeds, the probe list is empty, the aggregator performs zero fetches and
returns the empty string, and the report on it emits no lines. -/
theorem equal_bounds_empty_report (fetch : Int → String) (t : Int)
    (h : _min_timestamp ≤ t) :
    validate_timestamps t t = ValidateResult.ok
    ∧ timestampsList t t = []
    ∧ get_summary_record fetch t t = ""
    ∧ format_output_value "" = [] := by
  have h' : (1378395540 : Int) ≤ t := h
  have hnil : timestampsList t t = [] := by
    rw [timestampsList_unfold, if_neg (lt_irrefl t)]
  refine ⟨?_, hnil, ?_, rfl⟩
  · unfold validate_timestamps _min_timestamp
    rw [if_neg (by omega : ¬ t > t),
      if_neg (by omega : ¬ (t < 1378395540 ∨ t < 1378395540))]
  · unfold get_summary_record
    rw [hnil]
    rfl

/-- C10 amended witness at `t = _min_timestamp`. -/
theorem equal_bounds_empty_report_witness :
    get_summary_record (fun _ => "") _min_timestamp _min_timestamp = "" :=
  (equal_bounds_empty_report (fun _ => "") _min_timestamp (le_refl _)).2.2.1

/-- Values the Python variable `str_error` can hold when the `if str_error:`
test runs: `None` (set after a successful fetch) or a caught exception. -/
inductive PyValue where
  | pyNone
  | ioError
deriving DecidableEq

/-- Truth-testing a possibly-unbound local: `none` models an unbound name
(`except E as name` deletes `name` when the handler exits, per PEP 3110),
whose evaluation raises `UnboundLocalError`; otherwise Python truthiness of
the held value (`None` is falsy, an exception object is truthy). -/
def truthTest : Option PyValue → Except Unit Bool
  | none => Except.error ()
  | some PyValue.pyNone => Except.ok false
  | some PyValue.ioError => Except.ok true

/-- Observable side effects of `get_xml`: the `print`ed lines and the
`sleep` call arguments, in order within each list. -/
structure IOTrace where
  prints : List String
  sleeps : List Nat
deriving DecidableEq

/-- Outcomes of `get_xml`: a normal `return xml` (the variable may still be
Python `None`), the `sys.exit(1)` after the loop, or an uncaught
`UnboundLocalError` (interpreter aborts, exit code 1, traceback). -/
inductive GetXmlOutcome where
  | ret (xml : Option String)
  | exitHostDown
  | unboundLocalError
deriving DecidableEq

/-- Embedding of the `for x in range(0, 3):` retry loop of `get_xml`.
`attempts x = some s` models `str(urlopen(url).read())` succeeding with
`s` on attempt `x`; `none` models it raising `IOError` (of which
`ConnectionError` is a subclass, so the second handler is dead code).
On success the try block also runs `str_error = None`; on failure the
handler prints `_host_unreachable` and, when it exits, the name
`str_error` is unbound again (PEP 3110), so the following
`if str_error:` test raises `UnboundLocalError`. -/
def get_xml_loop (attempts : Nat → Option String) :
    List Nat → Option String → IOTrace → GetXmlOutcome × IOTrace
  | [], _, tr =>
    (GetXmlOutcome.exitHostDown,
      { prints := tr.prints ++ [_host_unreachable_at_all], sleeps := tr.sleeps })
  | x :: xs, xmlVar, tr =>
    match attempts x with
    | some s =>
      match truthTest (some PyValue.pyNone) with
      | Except.error _ => (GetXmlOutcome.unboundLocalError, tr)
      | Except.ok true =>
        get_xml_loop attempts xs (some s)
          { prints := tr.prints
              ++ ["Waiting 2 seconds for retry #" ++ toString (x + 1), "Retrying..."],
            sleeps := tr.sleeps ++ [2] }
      | Except.ok false => (GetXmlOutcome.ret (some s), tr)
    | none =>
      match truthTest none with
      | Except.error _ =>
        (GetXmlOutcome.unboundLocalError,
          { prints := tr.prints ++ [_host_unreachable], sleeps := tr.sleeps })
      | Except.ok true =>
        get_xml_loop attempts xs xmlVar
          { prints := tr.prints ++ [_host_unreachable]
              ++ ["Waiting 2 seconds for retry #" ++ toString (x + 1), "Retrying..."],
            sleeps := tr.sleeps ++ [2] }
      | Except.ok false =>
        (GetXmlOutcome.ret xmlVar,
          { prints := tr.prints ++ [_host_unreachable], sleeps := tr.sleeps })

/-- Embedding of `get_xml(url)`: run the three loop iterations with `xml`
initially `None` and an empty effect trace. -/
def get_xml (attempts : Nat → Option String) : GetXmlOutcome × IOTrace :=
  get_xml_loop attempts [0, 1, 2] none { prints := [], sleeps := [] }

/-- C3 evaluation: on a first-attempt network failure `get_xml` prints the
unreachable message once and aborts with `UnboundLocalError` — no 2-second
wait, no retry, and no "unreachable at all" exit; on a first-attempt
success it returns the fetched text untouched. -/
theorem get_xml_crashes_on_first_failure :
    get_xml (fun _ => none)
      = (GetXmlOutcome.unboundLocalError,
          { prints := [_host_unreachable], sleeps := [] })
    ∧ get_xml (fun _ => some "X")
      = (GetXmlOutcome.ret (some "X"), { prints := [], sleeps := [] }) :=
  ⟨rfl, rfl⟩

/-- Pattern `<outputValue>` of the regex, as characters. -/
def ovOpen : List Char := "<outputValue>".data

/-- Pattern `</outputValue>` of the regex, as characters. -/
def ovClose : List Char := "</outputValue>".data

/-- Lazy group match of `(.*?)</outputValue>` at a fixed position: the
shortest newline-free prefix followed immediately by `</outputValue>`
(regex `.` does not match a newline). -/
def lazyGroup : List Char → Option (List Char)
  | [] => none
  | c :: rs =>
    if ovClose.isPrefixOf (c :: rs) then some []
    else if c = '\n' then none
    else (lazyGroup rs).map (fun g => c :: g)

/-- Leftmost match of `re.search('<outputValue>(.*?)</outputValue>', xml)`:
try a match at each position from the left; at a position, the text must
start with `<outputValue>` and the lazy group must complete. -/
def searchGroup : List Char → Option (List Char)
  | [] => none
  | c :: rs =>
    match (if ovOpen.isPrefixOf (c :: rs)
      then lazyGroup ((c :: rs).drop ovOpen.length) else none) with
    | some g => some g
    | none => searchGroup rs

/-- Outcomes of `parse_xml`: return of the matched group, the uncaught
`AttributeError`, or the `print` + `sys.exit(1)` diagnosis path (its
handlers catch only `TypeError` and `ValueError`). -/
inductive ParseXmlResult where
  | ok (value : String)
  | attributeError
  | exitValueNotFound
deriving DecidableEq

/-- Embedding of `parse_xml(xml)` on string input: when the pattern
matches, `.group(1)` returns the first match's group; when it does not,
`re.search` returns `None` and `None.group(1)` raises `AttributeError`,
which is neither `TypeError` nor `ValueError`, so the handlers that would
print `_value_not_found` and exit never fire. -/
def parse_xml (xml : String) : ParseXmlResult :=
  match searchGroup xml.data with
  | some g => ParseXmlResult.ok (String.mk g)
  | none => ParseXmlResult.attributeError

/-- C4 evaluation: the extractor returns the inner text of the first
`<outputValue>` element, but on text lacking the element it raises an
uncaught `AttributeError` instead of taking the "output value wasn't
found" exit path. -/
theorem parse_xml_behavior :
    parse_xml "<outputValue>DEADBEEF</outputValue>" = ParseXmlResult.ok "DEADBEEF"
    ∧ parse_xml "<outputValue>A</outputValue><outputValue>B</outputValue>"
        = ParseXmlResult.ok "A"
    ∧ parse_xml "hello" = ParseXmlResult.attributeError
    ∧ parse_xml "hello" ≠ ParseXmlResult.exitValueNotFound := by
  refine ⟨by decide, by decide, by decide, by decide⟩

/-- Outcomes of `convert_to_timestamp`: a returned timestamp or the
`print` + `print help` + `sys.exit(1)` path for a bad relative time. -/
inductive ConvertResult where
  | ok (timestamp : Int)
  | exitBadTime
deriving DecidableEq

/-- Embedding of `convert_to_timestamp(relative_time)`.  The external
`chronyk` library is abstracted as an oracle: `chronyk phrase = some ts`
models `int(Chronyk(phrase).timestamp())` evaluating to `ts`, and `none`
models it raising `TypeError` or `ValueError` (an unparseable phrase).
On success the code floors to the minute: `timestamp -= timestamp % 60`
(Python `%` on a positive modulus is `Int.emod`). -/
def convert_to_timestamp (chronyk : String → Option Int)
    (relative_time : String) : ConvertResult :=
  match chronyk relative_time with
  | none => ConvertResult.exitBadTime
  | some ts => ConvertResult.ok (ts - ts % 60)

/-- C7: every successfully parsed phrase yields a timestamp divisible by
60, and every phrase the external parser rejects takes the "bad related
time" exit. -/
theorem convert_to_timestamp_spec (chronyk : String → Option Int) (phrase : String) :
    (∀ ts : Int, convert_to_timestamp chronyk phrase = ConvertResult.ok ts → ts % 60 = 0)
    ∧ (chronyk phrase = none →
        convert_to_timestamp chronyk phrase = ConvertResult.exitBadTime) := by
  unfold convert_to_timestamp
  cases hc : chronyk phrase with
  | none => exact ⟨fun ts h => by simp at h, fun _ => rfl⟩
  | some v =>
    refine ⟨fun ts h => ?_, fun h => by simp at h⟩
    have hts : ts = v - v % 60 := by
      simpa using h.symm
    subst hts
    omega

/-- C7 witness: a parse producing 12345 is floored to 12300, divisible by
60; a failing parse exits with the diagnosis. -/
theorem convert_to_timestamp_spec_witness :
    (12300 : Int) % 60 = 0
    ∧ convert_to_timestamp (fun _ => none) "y" = ConvertResult.exitBadTime :=
  ⟨(convert_to_timestamp_spec (fun _ => some 12345) "x").1 12300 rfl,
    (convert_to_timestamp_spec (fun _ => none) "y").2 rfl⟩

/-- Dispatch outcomes of `main` on `sys.argv[1:]`. -/
inductive MainAction where
  | runLatest
  | helpExit0
  | wrongParamsExit2
  | runRange (fromPhrase toPhrase : String)
deriving DecidableEq

/-- Embedding of the argument dispatch of `main`: `len(args) == 0` runs the
latest-record path; `len(args) == 1` prints help and exits 0 only for
`--help`, otherwise wrong-parameters and exit 2; `len(args) == 4` requires
`args[0] == "--from"` and `args[2] == "--to"` (each violation exits 2) and
runs the ranged path on `args[1]`, `args[3]`; every other length exits 2. -/
def main_dispatch : List String → MainAction
  | [] => MainAction.runLatest
  | [a] => if a = "--help" then MainAction.helpExit0 else MainAction.wrongParamsExit2
  | [a, b, c, d] =>
    if a ≠ "--from" then MainAction.wrongParamsExit2
    else if c ≠ "--to" then MainAction.wrongParamsExit2
    else MainAction.runRange b d
  | _ => MainAction.wrongParamsExit2

/-- Shape predicate for the claim: exactly `["--from", p, "--to", q]`. -/
def isRangeShape : List String → Bool
  | [a, _, c, _] => a == "--from" && c == "--to"
  | _ => false

/-- C8: every argument list that is not empty, not `["--help"]`, and not of
the shape `["--from", p, "--to", q]` dispatches to wrong-parameters with
exit code 2, and `["--help"]` alone dispatches to the help/exit-0 path. -/
theorem main_dispatch_spec :
    (∀ args : List String, args ≠ [] → args ≠ ["--help"] →
      isRangeShape args = false → main_dispatch args = MainAction.wrongParamsExit2)
    ∧ main_dispatch ["--help"] = MainAction.helpExit0 := by
  refine ⟨?_, rfl⟩
  intro args h0 h1 h2
  match args with
  | [] => exact absurd rfl h0
  | [a] =>
    have ha : a ≠ "--help" := fun h => h1 (by rw [h])
    simp [main_dispatch, ha]
  | [a, b] => rfl
  | [a, b, c] => rfl
  | [a, b, c, d] =>
    simp only [isRangeShape, Bool.and_eq_false_iff, beq_eq_false_iff_ne] at h2
    rcases h2 with h | h <;> simp [main_dispatch, h]
  | a :: b :: c :: d :: e :: rest => rfl

/-- C8 witness: three arguments, and four arguments with `--from`
misspelled, both dispatch to the exit-2 path; `--help` to exit 0. -/
theorem main_dispatch_spec_witness :
    main_dispatch ["--form", "x", "--to", "y"] = MainAction.wrongParamsExit2
    ∧ main_dispatch ["a", "b", "c"] = MainAction.wrongParamsExit2 :=
  ⟨main_dispatch_spec.1 ["--form", "x", "--to", "y"] (by decide) (by decide) (by decide),
    main_dispatch_spec.1 ["a", "b", "c"] (by decide) (by decide) (by decide)⟩

/-- Keys the reporter loop emits on a sorted input: the head, then the keys
of the tail with all copies of the head stripped. -/
def sortedKeys : List Char → List Char
  | [] => []
  | c :: t => c :: sortedKeys (t.filter (fun x => decide (x ≠ c)))
termination_by l => l.length
decreasing_by
  simp only [List.length_cons]
  exact Nat.lt_succ_of_le (List.length_filter_le _ _)

theorem mem_sortedKeys_aux :
    ∀ (n : Nat) (l : List Char), l.length ≤ n →
      ∀ x : Char, (x ∈ sortedKeys l ↔ x ∈ l) := by
  intro n
  induction n with
  | zero =>
    intro l hl x
    cases l with
    | nil => simp [sortedKeys]
    | cons c t => simp at hl
  | succ n ih =>
    intro l hl x
    cases l with
    | nil => simp [sortedKeys]
    | cons c t =>
      have hlen : (t.filter (fun y => decide (y ≠ c))).length ≤ n := by
        have := List.length_filter_le (fun y => decide (y ≠ c)) t
        simp only [List.length_cons] at hl
        omega
      simp only [sortedKeys, List.mem_cons, ih _ hlen x, List.mem_filter,
        decide_eq_true_eq]
      constructor
      · rintro (rfl | ⟨hx, _⟩)
        · exact Or.inl rfl
        · exact Or.inr hx
      · rintro (rfl | hx)
        · exact Or.inl rfl
        · by_cases hxc : x = c
          · exact Or.inl hxc
          · exact Or.inr ⟨hx, hxc⟩

theorem mem_sortedKeys (l : List Char) (x : Char) :
    x ∈ sortedKeys l ↔ x ∈ l :=
  mem_sortedKeys_aux l.length l (le_refl _) x

theorem nodup_sortedKeys : ∀ (n : Nat) (l : List Char), l.length ≤ n →
    (sortedKeys l).Nodup := by
  intro n
  induction n with
  | zero =>
    intro l hl
    cases l with
    | nil => simp [sortedKeys]
    | cons c t => simp at hl
  | succ n ih =>
    intro l hl
    cases l with
    | nil => simp [sortedKeys]
    | cons c t =>
      have hlen : (t.filter (fun y => decide (y ≠ c))).length ≤ n := by
        have := List.length_filter_le (fun y => decide (y ≠ c)) t
        simp only [List.length_cons] at hl
        omega
      simp only [sortedKeys]
      refine List.nodup_cons.mpr ⟨?_, ih _ hlen⟩
      intro hc
      have := (mem_sortedKeys _ c).mp hc
      simp [List.mem_filter] at this

theorem sorted_sortedKeys : ∀ (n : Nat) (l : List Char), l.length ≤ n →
    List.Sorted (fun a b : Char => a ≤ b) l →
    List.Sorted (fun a b : Char => a ≤ b) (sortedKeys l) := by
  intro n
  induction n with
  | zero =>
    intro l hl hs
    cases l with
    | nil => simp [sortedKeys]
    | cons c t => simp at hl
  | succ n ih =>
    intro l hl hs
    cases l with
    | nil => simp [sortedKeys]
    | cons c t =>
      have hlen : (t.filter (fun y => decide (y ≠ c))).length ≤ n := by
        have := List.length_filter_le (fun y => decide (y ≠ c)) t
        simp only [List.length_cons] at hl
        omega
      rcases List.sorted_cons.mp hs with ⟨hhead, htail⟩
      simp only [sortedKeys]
      refine List.sorted_cons.mpr ⟨?_, ih _ hlen (htail.filter _)⟩
      intro b hb
      have hbf := (mem_sortedKeys _ b).mp hb
      exact hhead b (List.mem_of_mem_filter hbf)

/-- Iterations whose symbol no longer occurs in the current string emit
nothing and leave the current string unchanged. -/
theorem fovLoop_replicate (c : Char) :
    ∀ (n : Nat) (rest cur : List Char), cur.count c = 0 →
      fovLoop (List.replicate n c ++ rest) cur = fovLoop rest cur := by
  intro n
  induction n with
  | zero => intro rest cur _; simp
  | succ n ih =>
    intro rest cur h
    have hfix : cur.filter (fun x => decide (x ≠ c)) = cur := by
      refine List.filter_eq_self.mpr ?_
      intro a ha
      simp only [decide_eq_true_eq]
      intro rfl_eq
      subst rfl_eq
      exact absurd (List.count_pos_iff.mpr ha) (by omega)
    simp only [List.replicate_succ, List.cons_append, fovLoop, h, hfix,
      Nat.lt_irrefl, if_neg (by omega : ¬ 0 < 0), List.nil_append]
    exact ih rest cur h

/-- A sorted list whose elements all dominate `a` splits as the block of
copies of `a` followed by the `a`-free remainder. -/
theorem sorted_decomp :
    ∀ (l : List Char) (a : Char),
      List.Sorted (fun x y : Char => x ≤ y) l → (∀ x ∈ l, a ≤ x) →
      l = List.replicate (l.count a) a ++ l.filter (fun x => decide (x ≠ a)) := by
  intro l
  induction l with
  | nil => intro a _ _; simp
  | cons x t ih =>
    intro a hs ha
    rcases List.sorted_cons.mp hs with ⟨hhead, htail⟩
    by_cases hxa : x = a
    · subst hxa
      have hfa : (x :: t).filter (fun y => decide (y ≠ x)) =
          t.filter (fun y => decide (y ≠ x)) := by
        simp [List.filter_cons]
      rw [List.count_cons_self, hfa, List.replicate_succ, List.cons_append]
      have := ih x htail (fun z hz => hhead z hz)
      exact congrArg (x :: ·) this
    · have hax : a < x := lt_of_le_of_ne (ha x (List.mem_cons_self x t)) (Ne.symm hxa)
      have hnotin : a ∉ x :: t := by
        intro hmem
        rcases List.mem_cons.mp hmem with rfl | hmem'
        · exact absurd hax (lt_irrefl a)
        · exact absurd (lt_of_lt_of_le hax (hhead a hmem')) (lt_irrefl a)
      have hcount : (x :: t).count a = 0 := List.count_eq_zero.mpr hnotin
      have hfilter : (x :: t).filter (fun y => decide (y ≠ a)) = x :: t := by
        refine List.filter_eq_self.mpr ?_
        intro b hb
        simp only [decide_eq_true_eq]
        intro rfl_eq
        subst rfl_eq
        exact hnotin hb
      rw [hcount, hfilter]
      simp

/-- Core characterisation: on a sorted string, the destructive reporter
loop emits exactly one pair per distinct character — the key in order and,
for each, its total count in the loop's input. -/
theorem fovLoop_sorted_eq :
    ∀ (n : Nat) (l : List Char), l.length ≤ n →
      List.Sorted (fun a b : Char => a ≤ b) l →
      fovLoop l l = (sortedKeys l).map (fun c => (c, l.count c)) := by
  intro n
  induction n with
  | zero =>
    intro l hl _
    cases l with
    | nil => simp [fovLoop, sortedKeys]
    | cons c t => simp at hl
  | succ n ih =>
    intro l hl hs
    cases l with
    | nil => simp [fovLoop, sortedKeys]
    | cons c t =>
      rcases List.sorted_cons.mp hs with ⟨hhead, htail⟩
      set R := t.filter (fun y => decide (y ≠ c)) with hRdef
      have hfa : (c :: t).filter (fun y => decide (y ≠ c)) = R := by
        rw [hRdef]
        simp [List.filter_cons]
      have hcpos : 0 < (c :: t).count c := by
        rw [List.count_cons_self]; omega
      have step : fovLoop (c :: t) (c :: t) = (c, (c :: t).count c) :: fovLoop t R := by
        simp only [fovLoop, if_pos hcpos, hfa, List.singleton_append]
      have hdecomp : t = List.replicate (t.count c) c ++ R :=
        sorted_decomp t c htail (fun z hz => hhead z hz)
      have hRcount : R.count c = 0 := by
        refine List.count_eq_zero.mpr ?_
        intro hmem
        rw [hRdef] at hmem
        simp [List.mem_filter] at hmem
      have hskip : fovLoop t R = fovLoop R R := by
        have hrep := fovLoop_replicate c (t.count c) R R hRcount
        rw [← hdecomp] at hrep
        exact hrep
      have hlen : R.length ≤ n := by
        have := List.length_filter_le (fun y => decide (y ≠ c)) t
        rw [← hRdef] at this
        simp only [List.length_cons] at hl
        omega
      have hRsorted : List.Sorted (fun a b : Char => a ≤ b) R := by
        rw [hRdef]
        exact htail.filter _
      have hrec := ih R hlen hRsorted
      have hmapeq : (sortedKeys R).map (fun x => (x, R.count x))
          = (sortedKeys R).map (fun x => (x, (c :: t).count x)) := by
        refine List.map_congr_left ?_
        intro x hx
        have hxf := (mem_sortedKeys R x).mp hx
        have hxne : x ≠ c := by
          rw [hRdef] at hxf
          rcases List.mem_filter.mp hxf with ⟨_, hdec⟩
          simpa using hdec
        have h1 : R.count x = t.count x := by
          rw [hRdef]
          exact List.count_filter (by simpa using hxne)
        have h2 : (c :: t).count x = t.count x := List.count_cons_of_ne hxne t
        rw [h1, h2]
      rw [step, hskip, hrec, hmapeq]
      have hkeys : sortedKeys (c :: t) = c :: sortedKeys R := by
        rw [sortedKeys, hRdef]
      rw [hkeys, List.map_cons]

/-- The emitted keys are the sorted deduplication of the (sorted) input. -/
theorem sortedKeys_eq_sortChars_dedup (l : List Char)
    (hs : List.Sorted (fun a b : Char => a ≤ b) l) :
    sortedKeys l = sortChars l.dedup := by
  have h1 : List.Sorted (fun a b : Char => a ≤ b) (sortedKeys l) :=
    sorted_sortedKeys l.length l (le_refl _) hs
  have h2 : List.Sorted (fun a b : Char => a ≤ b) (sortChars l.dedup) :=
    List.sorted_insertionSort _ _
  have hperm : List.Perm (sortedKeys l) (sortChars l.dedup) := by
    have p1 : List.Perm (sortedKeys l) l.dedup := by
      refine (List.perm_ext_iff_of_nodup
        (nodup_sortedKeys l.length l (le_refl _)) (List.nodup_dedup l)).mpr ?_
      intro a
      rw [mem_sortedKeys, List.mem_dedup]
    exact p1.trans (List.perm_insertionSort _ _).symm
  exact List.eq_of_perm_of_sorted hperm h1 h2

/-- C1: the Frequency Reporter equals the spec's single-pass reference
(mapping built in one pass, emitted sorted by key); its lines carry the
distinct characters of the input in strictly ascending order, each with its
total occurrence count, and the counts sum to the input length. -/
theorem format_output_value_spec (s : String) :
    format_output_value s = freqReference s
    ∧ (format_output_value s).map Prod.fst = sortChars s.data.dedup
    ∧ List.Sorted (fun a b : Char => a < b) ((format_output_value s).map Prod.fst)
    ∧ (∀ c : Char, c ∈ (format_output_value s).map Prod.fst ↔ c ∈ s.data)
    ∧ (format_output_value s).map Prod.snd
        = (sortChars s.data.dedup).map (fun c => s.data.count c)
    ∧ ((format_output_value s).map Prod.snd).sum = s.length := by
  have hLsorted : List.Sorted (fun a b : Char => a ≤ b) (sortChars s.data) :=
    List.sorted_insertionSort _ _
  have hLperm : List.Perm (sortChars s.data) s.data := List.perm_insertionSort _ _
  have hmain : format_output_value s
      = (sortedKeys (sortChars s.data)).map
          (fun c => (c, (sortChars s.data).count c)) :=
    fovLoop_sorted_eq (sortChars s.data).length _ (le_refl _) hLsorted
  have hkeys : sortedKeys (sortChars s.data) = sortChars s.data.dedup := by
    rw [sortedKeys_eq_sortChars_dedup _ hLsorted]
    have hp : List.Perm (sortChars s.data).dedup s.data.dedup := hLperm.dedup
    exact List.eq_of_perm_of_sorted
      ((List.perm_insertionSort _ _).trans
        (hp.trans (List.perm_insertionSort _ _).symm))
      (List.sorted_insertionSort _ _) (List.sorted_insertionSort _ _)
  have hcnt : ∀ c : Char, (sortChars s.data).count c = s.data.count c :=
    fun c => hLperm.count_eq c
  have hform : format_output_value s
      = (sortChars s.data.dedup).map (fun c => (c, s.data.count c)) := by
    rw [hmain, hkeys]
    exact List.map_congr_left (fun c _ => by rw [hcnt c])
  have hKnodup : (sortChars s.data.dedup).Nodup :=
    (List.perm_insertionSort _ _).nodup_iff.mpr (List.nodup_dedup _)
  have hKsorted : List.Sorted (fun a b : Char => a ≤ b) (sortChars s.data.dedup) :=
    List.sorted_insertionSort _ _
  have hfst : (format_output_value s).map Prod.fst = sortChars s.data.dedup := by
    rw [hform]
    exact (List.map_map _ _ _).trans (List.map_id _)
  refine ⟨hform, hfst, ?_, ?_, ?_, ?_⟩
  · rw [hfst]
    exact hKsorted.lt_of_le hKnodup
  · intro c
    rw [hfst]
    exact ((List.perm_insertionSort _ _).mem_iff).trans List.mem_dedup
  · rw [hform, List.map_map]
    rfl
  · rw [hform, List.map_map]
    have hsnd : ((sortChars s.data.dedup).map
        (Prod.snd ∘ fun c => (c, s.data.count c))).sum
        = ((sortChars s.data.dedup).map (fun c => s.data.count c)).sum := rfl
    rw [hsnd]
    have hpermsum : ((sortChars s.data.dedup).map (fun c => s.data.count c)).sum
        = ((s.data.dedup).map (fun c => s.data.count c)).sum :=
      ((List.perm_insertionSort _ _).map _).sum_eq
    rw [hpermsum, List.sum_map_count_dedup_eq_length]
    rfl

end SummarizeBeacon
